import Mathlib

/-!
Verification of the WhenWhere timezone-explorer core: a shallow embedding of
the city/offset search-and-grouping engine (`CitySearch`), the pin-set
manager and URL synchronisation (`TimezoneExplorer`), and the derived-time
difference formatting (`lib/utils`), together with proofs of the behavioural
properties stated in the specification.

Conventions of the embedding:
* JS strings are Lean `String`s / `List Char`s; machine numbers are `Int`/`Nat`
  (all arithmetic here is small and exact).
* The timezone math library (luxon) is modelled as an oracle
  `tzOffset : String → Option Int` giving a zone's UTC offset in minutes at
  the single shared evaluation instant, with `none` for a zone the library
  fails to resolve (the code's `try`/`catch`).
* Browser `URLSearchParams` percent-decoding is modelled for exactly the
  escape the writer emits (`%20` for a space).
-/

namespace WhenWhere

/-- A catalog city (`data/cities`): display name (the de-facto primary key),
country, IANA zone id, and coordinates.  The coordinate fields are carried as
integers; no verified property depends on them. -/
structure City where
  name : String
  country : String
  tz : String
  lat : Int
  lon : Int
deriving DecidableEq, Repr

/-! ### Offset query parser (`parseOffsetQuery` in `CitySearch`)

The source matches the trimmed, lower-cased query against
`^(?:utc|gmt)\s*([+-])?\s*(\d{1,2})(?::(\d{2}))?$`, falling back to the test
`^(?:utc|gmt)$` (bare literal means offset 0).  The regex is deterministic on
its input alphabet (whitespace, sign, digits and `:` are disjoint classes), so
it is embedded as a sequential scanner. -/

/-- JS regex `\s` whitespace, restricted to the ASCII space characters. -/
def isWs (c : Char) : Bool :=
  c = ' ' || c = '\t' || c = '\n' || c = '\r' || c = '\x0b' || c = '\x0c'

/-- Numeric value of a decimal digit character. -/
def digitVal (c : Char) : Nat := c.toNat - '0'.toNat

/-- Consume the leading literal `utc` or `gmt` (mandatory in the regex). -/
def stripLit (cs : List Char) : Option (List Char) :=
  if cs.take 3 = ['u', 't', 'c'] ∨ cs.take 3 = ['g', 'm', 't'] then
    some (cs.drop 3)
  else none

/-- Decimal value of a digit list (most significant first). -/
def digitsVal (ds : List Char) : Nat := ds.foldl (fun a c => 10 * a + digitVal c) 0

/-- The `(\d{1,2})(?::(\d{2}))?$` tail of the regex: 1–2 hour digits taken
greedily, then an optional `:MM` field, then end of input.  Returns the total
minutes `hours * 60 + minutes` (unsigned). -/
def parseHM (rest : List Char) : Option Nat :=
  let ds := rest.takeWhile Char.isDigit
  let tail := rest.dropWhile Char.isDigit
  if ds.length = 0 ∨ 2 < ds.length then none
  else
    match tail with
    | [] => some (digitsVal ds * 60)
    | [':', d1, d2] =>
      if d1.isDigit && d2.isDigit then
        some (digitsVal ds * 60 + (10 * digitVal d1 + digitVal d2))
      else none
    | _ => none

/-- The optional sign `([+-])?` with default `+` (`m[1] === "-" ? -1 : 1`):
the sign value and the rest of the input. -/
def signSplit (r : List Char) : Int × List Char :=
  match r with
  | [] => (1, [])
  | c :: t => if c = '+' then (1, t) else if c = '-' then (-1, t) else (1, c :: t)

/-- The full anchored regex match: literal, `\s*`, optional sign (default `+`),
`\s*`, hours and optional minutes. -/
def matchMain (cs : List Char) : Option Int :=
  match stripLit cs with
  | none => none
  | some r0 =>
    match parseHM ((signSplit (r0.dropWhile isWs)).2.dropWhile isWs) with
    | some hm => some ((signSplit (r0.dropWhile isWs)).1 * hm)
    | none => none

/-- `parseOffsetQuery` from `CitySearch`: the main regex, with bare `utc`/`gmt`
accepted as offset 0; any other text yields `none` ("not an offset query"). -/
def parseOffsetQuery (q : String) : Option Int :=
  match matchMain q.data with
  | some v => some v
  | none => if q = "utc" ∨ q = "gmt" then some 0 else none

/-! ### Search & grouping engine (`CitySearch` results memo) -/

/-- JS `String.prototype.trim()`: strip leading and trailing whitespace. -/
def trimChars (cs : List Char) : List Char :=
  ((cs.dropWhile isWs).reverse.dropWhile isWs).reverse

/-- JS `string.trim().toLowerCase()` — the query normalisation of the
`results` memo (character-level; lower-casing is per character). -/
def normalizeQuery (s : String) : String := ⟨(trimChars s.data).map Char.toLower⟩

/-- JS `string.toLowerCase()` on a city or country name. -/
def toLowerStr (s : String) : String := ⟨s.data.map Char.toLower⟩

/-- JS `String.prototype.includes`: substring occurrence test. -/
def containsSub : List Char → List Char → Bool
  | [], sub => sub.isEmpty
  | c :: t, sub => sub.isPrefixOf (c :: t) || containsSub t sub

/-- One country group of the dropdown. -/
abbrev Group := String × List City

/-- One step of `groupByCountry`'s loop over a JS `Map` (insertion-ordered):
append the city to its country's group, or open a new group at the end. -/
def groupInsert (acc : List Group) (c : City) : List Group :=
  if acc.any (fun g => decide (g.1 = c.country)) then
    acc.map (fun g => if g.1 = c.country then (g.1, g.2 ++ [c]) else g)
  else acc ++ [(c.country, [c])]

/-- `groupByCountry` from `CitySearch`: partition a result list into country
groups, countries in first-seen order, cities in list order within a group. -/
def groupByCountry (cities : List City) : List Group :=
  cities.foldl groupInsert []

/-- The triple computed by the `results` memo of `CitySearch`. -/
structure SearchOutput where
  results : List City
  grouped : List Group
  showGroups : Bool
deriving DecidableEq, Repr

/-- The offset-branch filter predicate: keep a city iff its zone resolves and
its current offset equals the requested one; a resolution failure (`catch`)
keeps the city out. -/
def offsetKeep (tzOffset : String → Option Int) (target : Int) (c : City) : Bool :=
  match tzOffset c.tz with
  | some o => decide (o = target)
  | none => false

/-- The `results` memo of `CitySearch`: normalise the query, handle the empty
query, the offset branch and the free-text branch.  `tzOffset` is the luxon
offset lookup at the one `Date.now()` instant shared by the whole
evaluation. -/
def searchResults (catalog : List City) (tzOffset : String → Option Int)
    (query : String) : SearchOutput :=
  let q := normalizeQuery query
  if q.length = 0 then ⟨[], [], false⟩
  else
    match parseOffsetQuery q with
    | some offsetMinutes =>
      let matched := (catalog.filter (offsetKeep tzOffset offsetMinutes)).take 12
      ⟨matched, groupByCountry matched, true⟩
    | none =>
      let cityMatches := catalog.filter (fun c => containsSub (toLowerStr c.name).data q.data)
      let seen := cityMatches.map City.name
      let countryMatches := catalog.filter (fun c =>
        !seen.contains c.name && containsSub (toLowerStr c.country).data q.data)
      let combined := (cityMatches ++ countryMatches).take 12
      let hasCountryMatches := decide (0 < countryMatches.length)
      let multipleCountries := decide (1 < ((combined.map City.country).dedup).length)
      ⟨combined, groupByCountry combined, hasCountryMatches || multipleCountries⟩

/-- The `flatResults` memo of `CitySearch`: the sequence keyboard navigation
walks — the grouped list flattened when groups are shown, else the flat
results. -/
def flatResults (o : SearchOutput) : List City :=
  if o.showGroups then (o.grouped.map Prod.snd).flatten else o.results

/-! ### Pin set manager (`handleCityPin` / `handleSelect`) -/

/-- The `setPinnedCities` updater of `handleCityPin` in `TimezoneExplorer`:
toggle by name; at capacity 4 a new pin is a silent no-op; otherwise append. -/
def pinCity (prev : List City) (city : City) : List City :=
  match prev.findIdx? (fun c => decide (c.name = city.name)) with
  | some i => prev.eraseIdx i
  | none => if 4 ≤ prev.length then prev else prev ++ [city]

/-- `handleSelect` in `CitySearch`: selecting from search only adds — an
already-pinned city (by name) is left alone rather than toggled off. -/
def handleSelect (pinned : List City) (city : City) : List City :=
  if pinned.any (fun c => decide (c.name = city.name)) then pinned
  else pinCity pinned city

/-- The user-visible pin-set operations: pin/unpin toggle and "clear all". -/
inductive PinOp where
  | pin (c : City)
  | clear
deriving Repr

/-- Apply one operation to the pinned list. -/
def applyPinOp (s : List City) : PinOp → List City
  | .pin c => pinCity s c
  | .clear => []

/-- Run a sequence of operations from the initial empty pin set. -/
def applyPinOps (ops : List PinOp) : List City := ops.foldl applyPinOp []

/-! ### Hidden-city set and map visibility (`TimezoneExplorer`) -/

/-- The `setHiddenCities` updater of `handleCityPin`: when the pinned city's
name is hidden, remove it (a fresh set); otherwise return `prev` itself. -/
def unhideOnPin (hidden : List String) (n : String) : List String :=
  if hidden.contains n then hidden.erase n else hidden

/-- The combined state effect of `handleCityPin` on (pinned, hidden). -/
def handleCityPin (pinned : List City) (hidden : List String) (city : City) :
    List City × List String :=
  (pinCity pinned city, unhideOnPin hidden city.name)

/-- The `visibleCities` memo: featured + pinned + search-highlighted cities,
minus hidden (hiding only suppresses featured display). -/
def visibleCities (catalog pinned highlighted : List City)
    (hidden featured : List String) : List City :=
  catalog.filter (fun c =>
    (highlighted.map City.name).contains c.name ||
    (pinned.map City.name).contains c.name ||
    (!hidden.contains c.name && featured.contains c.name))

/-! ### Derived-time difference formatting (`lib/utils`) -/

/-- `formatDiff` from `lib/utils`: render a signed minute difference. -/
def formatDiff (minutes : Int) : String :=
  if minutes = 0 then "same time"
  else
    let sign := if 0 < minutes then "+" else "-"
    let a := minutes.natAbs
    let h := a / 60
    let m := a % 60
    if m = 0 then sign ++ toString h ++ "h"
    else sign ++ toString h ++ "h " ++ toString m ++ "m"

/-- The `diffMinutes` wiring of `pinnedDerived`/`hoveredDerived`:
`zoneTime.offset - homeTime.offset`, then `formatDiff`. -/
def homeDiffLabel (targetOffset homeOffset : Int) : String :=
  formatDiff (targetOffset - homeOffset)

/-! ### URL synchronisation (`TimezoneExplorer` mount / sync effects) -/

/-- `name.replace(/ /g, "%20")` in the URL-sync effect. -/
def encodeSpaces : List Char → List Char
  | [] => []
  | c :: t => if c = ' ' then '%' :: '2' :: '0' :: encodeSpaces t
              else c :: encodeSpaces t

/-- Modelled from the spec: browser `URLSearchParams` decoding of a parameter
value (the browser API is outside the repository), restricted to the `%20`
escape that the writer emits. -/
def decodeSpaces : List Char → List Char
  | [] => []
  | [c] => [c]
  | [c1, c2] => [c1, c2]
  | c1 :: c2 :: c3 :: t =>
    if c1 = '%' ∧ c2 = '2' ∧ c3 = '0' then ' ' :: decodeSpaces t
    else c1 :: decodeSpaces (c2 :: c3 :: t)

/-- JS `Array.prototype.join(",")`. -/
def joinComma : List (List Char) → List Char
  | [] => []
  | [x] => x
  | x :: y :: t => x ++ ',' :: joinComma (y :: t)

/-- Prepend a character to the first group of a split-in-progress. -/
def consHead (c : Char) : List (List Char) → List (List Char)
  | [] => [[c]]
  | g :: gs => (c :: g) :: gs

/-- JS `String.prototype.split(",")` (note `"".split(",") = [""]`). -/
def splitComma : List Char → List (List Char)
  | [] => [[]]
  | c :: t => if c = ',' then [] :: splitComma t else consHead c (splitComma t)

/-- The `compare` parameter written by the URL-sync effect (absent when no
city is pinned). -/
def compareParamOf (pinned : List City) : Option String :=
  if 0 < pinned.length then
    some ⟨joinComma (pinned.map (fun c => encodeSpaces c.name.data))⟩
  else none

/-- The query string written by the URL-sync effect:
`?compare=...&home=...`, with `compare` omitted when nothing is pinned. -/
def urlQuery (pinned : List City) (homeTz : String) : String :=
  let parts :=
    (match compareParamOf pinned with
     | some s => ["compare=" ++ s]
     | none => []) ++ ["home=" ++ homeTz]
  "?" ++ String.intercalate "&" parts

/-- The mount effect's reading of the `compare` parameter: decode, split on
commas, trim, look each name up in the catalog dropping unknown names, and
keep the first 4 matches (the pin set stays empty when nothing matched). -/
def readCompare (catalog : List City) (param : Option String) : List City :=
  match param with
  | none => []
  | some s =>
    let found := ((splitComma (decodeSpaces s.data)).map
        (fun p => String.mk (trimChars p))).filterMap
        (fun n => catalog.find? (fun c => decide (c.name = n)))
    if found.length = 0 then [] else found.take 4

/-- The mount effect's reading of the `home` parameter: used verbatim when
present, otherwise the browser default is kept. -/
def readHome (param : Option String) (dflt : String) : String :=
  match param with
  | some h => h
  | none => dflt

/-! ### Sample data for concrete witnesses -/

def tokyo : City := ⟨"Tokyo", "Japan", "Asia/Tokyo", 36, 140⟩

def london : City := ⟨"London", "United Kingdom", "Europe/London", 51, 0⟩

def newYork : City := ⟨"New York", "United States", "America/New_York", 41, -74⟩

def paris : City := ⟨"Paris", "France", "Europe/Paris", 49, 2⟩

def berlin : City := ⟨"Berlin", "Germany", "Europe/Berlin", 53, 13⟩

def sampleCatalog : List City := [tokyo, london, newYork, paris, berlin]

/-- A concrete timezone oracle (offsets in minutes at one instant). -/
def sampleTz : String → Option Int := fun z =>
  if z = "Asia/Tokyo" then some 540
  else if z = "Europe/London" then some 60
  else if z = "America/New_York" then some (-240)
  else if z = "Europe/Paris" then some 120
  else if z = "Europe/Berlin" then some 120
  else none

/-! ### C8 — formatted home difference -/

/-- **C8.** The formatted home difference of
`target_offset_minutes − home_offset_minutes` is `"same time"` when the
difference is zero; otherwise it is the sign, then the whole hours, then a
`" {m}m"` suffix exactly when the minute remainder is nonzero.  In particular
`(+330, 0) ↦ "+5h 30m"`, `(0, 0) ↦ "same time"`, `(-480, -300) ↦ "-3h"`. -/
theorem formatDiff_spec (t h : Int) :
    (t - h = 0 → homeDiffLabel t h = "same time") ∧
    (t - h ≠ 0 → homeDiffLabel t h =
      (if 0 < t - h then "+" else "-") ++ toString ((t - h).natAbs / 60) ++ "h"
        ++ (if (t - h).natAbs % 60 = 0 then ""
            else " " ++ toString ((t - h).natAbs % 60) ++ "m")) ∧
    homeDiffLabel 330 0 = "+5h 30m" ∧
    homeDiffLabel 0 0 = "same time" ∧
    homeDiffLabel (-480) (-300) = "-3h" := by
  refine ⟨fun hz => ?_, fun hz => ?_, by decide, by decide, by decide⟩
  · simp [homeDiffLabel, formatDiff, hz]
  · by_cases hm : (t - h).natAbs % 60 = 0
    · simp only [homeDiffLabel, formatDiff, if_neg hz, if_pos hm]
      simp [String.append_assoc]
    · simp only [homeDiffLabel, formatDiff, if_neg hz, if_neg hm]
      have hh : ("h " : String) = "h" ++ " " := by decide
      rw [hh]
      simp only [String.append_assoc]

/-- Witness for C8: instantiating the formatting law at offsets (90, 30). -/
theorem formatDiff_spec_witness :
    homeDiffLabel 90 30 =
      (if 0 < (90 : Int) - 30 then "+" else "-")
        ++ toString (((90 : Int) - 30).natAbs / 60) ++ "h"
        ++ (if ((90 : Int) - 30).natAbs % 60 = 0 then ""
            else " " ++ toString (((90 : Int) - 30).natAbs % 60) ++ "m") :=
  (formatDiff_spec 90 30).2.1 (by decide)

/-! ### Pin-set lemmas -/

/-- The pin-set invariant: at most four cities, pairwise distinct names. -/
def PinInv (s : List City) : Prop := s.length ≤ 4 ∧ (s.map City.name).Nodup

lemma pinCity_of_findIdx?_some {s : List City} {city : City} {i : ℕ}
    (h : s.findIdx? (fun c => decide (c.name = city.name)) = some i) :
    pinCity s city = s.eraseIdx i := by
  unfold pinCity
  rw [h]

lemma pinCity_of_findIdx?_none {s : List City} {city : City}
    (h : s.findIdx? (fun c => decide (c.name = city.name)) = none) :
    pinCity s city = if 4 ≤ s.length then s else s ++ [city] := by
  unfold pinCity
  rw [h]

lemma pinCity_findIdx?_none {s : List City} {city : City}
    (h : city.name ∉ s.map City.name) :
    s.findIdx? (fun c => decide (c.name = city.name)) = none := by
  rw [List.findIdx?_eq_none_iff]
  intro c hc
  simp only [decide_eq_false_iff_not]
  intro hEq
  exact h (hEq ▸ List.mem_map_of_mem City.name hc)

/-- Under capacity, pinning a new name appends at the end. -/
lemma pinCity_append {s : List City} {city : City}
    (h : city.name ∉ s.map City.name) (hlen : s.length < 4) :
    pinCity s city = s ++ [city] := by
  rw [pinCity_of_findIdx?_none (pinCity_findIdx?_none h), if_neg (by omega)]

/-- At capacity, pinning a new name is a silent no-op. -/
lemma pinCity_full {s : List City} {city : City}
    (h : city.name ∉ s.map City.name) (hlen : 4 ≤ s.length) :
    pinCity s city = s := by
  rw [pinCity_of_findIdx?_none (pinCity_findIdx?_none h), if_pos hlen]

/-- With unique names, toggling a pinned name filters that city out. -/
lemma pinCity_erase {s : List City} {city : City}
    (hmem : city.name ∈ s.map City.name) (hnd : (s.map City.name).Nodup) :
    pinCity s city = s.filter (fun c => decide (¬ c.name = city.name)) := by
  induction s with
  | nil => simp at hmem
  | cons a t ih =>
    rw [List.map_cons, List.nodup_cons] at hnd
    by_cases ha : a.name = city.name
    · have hfi : (a :: t).findIdx? (fun c => decide (c.name = city.name)) = some 0 := by
        rw [List.findIdx?_cons, if_pos (by simp [ha])]
      have hpin : pinCity (a :: t) city = t := by
        rw [pinCity_of_findIdx?_some hfi, List.eraseIdx_cons_zero]
      have htn : ∀ c ∈ t, (fun c => decide (¬ c.name = city.name)) c = true := by
        intro c hc
        simp only [decide_eq_true_eq]
        intro hcn
        exact hnd.1 (ha ▸ hcn ▸ List.mem_map_of_mem City.name hc)
      rw [hpin, List.filter_cons_of_neg (by simp [ha]), List.filter_eq_self.mpr htn]
    · have hmem' : city.name ∈ t.map City.name := by
        rw [List.map_cons, List.mem_cons] at hmem
        rcases hmem with h1 | h1
        · exact absurd h1.symm ha
        · exact h1
      obtain ⟨i, hi⟩ : ∃ i, t.findIdx? (fun c => decide (c.name = city.name)) = some i := by
        rcases hfi : t.findIdx? (fun c => decide (c.name = city.name)) with _ | i
        · exfalso
          rw [List.findIdx?_eq_none_iff] at hfi
          obtain ⟨c, hc, hcn⟩ := List.mem_map.mp hmem'
          have := hfi c hc
          simp [hcn] at this
        · exact ⟨i, hfi⟩
      have hfi1 : (a :: t).findIdx? (fun c => decide (c.name = city.name)) = some (i + 1) := by
        rw [List.findIdx?_cons, if_neg (by simp [ha]), List.findIdx?_succ, hi]
        rfl
      rw [pinCity_of_findIdx?_some hfi1, List.eraseIdx_cons_succ,
        List.filter_cons_of_pos (by simp [ha]), ← pinCity_of_findIdx?_some hi,
        ih hmem' hnd.2]

/-- After toggling a pinned city off, its name is gone from the pin set. -/
lemma pinCity_name_not_mem {s : List City} {city : City}
    (hmem : city.name ∈ s.map City.name) (hnd : (s.map City.name).Nodup) :
    city.name ∉ (pinCity s city).map City.name := by
  rw [pinCity_erase hmem hnd]
  intro h
  obtain ⟨c, hc, hcn⟩ := List.mem_map.mp h
  have := (List.mem_filter.mp hc).2
  simp [hcn] at this

/-- Every pin-set operation preserves the invariant. -/
lemma pinInv_applyPinOp {s : List City} (h : PinInv s) (op : PinOp) :
    PinInv (applyPinOp s op) := by
  cases op with
  | clear =>
    show PinInv []
    exact ⟨by simp, by simp⟩
  | pin c =>
    show PinInv (pinCity s c)
    rcases hfi : s.findIdx? (fun x => decide (x.name = c.name)) with _ | i
    · rw [pinCity_of_findIdx?_none hfi]
      by_cases hlen : 4 ≤ s.length
      · rw [if_pos hlen]
        exact h
      · rw [if_neg hlen]
        rw [List.findIdx?_eq_none_iff] at hfi
        have hnm : c.name ∉ s.map City.name := by
          intro hmem
          obtain ⟨x, hx, hxn⟩ := List.mem_map.mp hmem
          have := hfi x hx
          simp [hxn] at this
        refine ⟨by simp; omega, ?_⟩
        rw [List.map_append, List.nodup_append]
        refine ⟨h.2, by simp, ?_⟩
        intro a ha hb
        simp only [List.map_cons, List.map_nil, List.mem_cons, List.not_mem_nil,
          or_false] at hb
        exact hnm (hb ▸ ha)
    · rw [pinCity_of_findIdx?_some hfi]
      have hsub := List.eraseIdx_sublist s i
      exact ⟨le_trans hsub.length_le h.1, h.2.sublist (hsub.map City.name)⟩

/-! ### C6 — pin-set invariants -/

/-- **C6.** After any sequence of pin/unpin/clear operations from the initial
empty pin set, the pinned list has length ≤ 4 and no duplicate names; pinning
a 5th distinct city when 4 are pinned leaves the set completely unchanged; and
pinning a new name under capacity appends it at the end. -/
theorem pin_set_invariants :
    (∀ ops : List PinOp,
      (applyPinOps ops).length ≤ 4 ∧ ((applyPinOps ops).map City.name).Nodup) ∧
    (∀ (s : List City) (city : City), s.length = 4 → city.name ∉ s.map City.name →
      pinCity s city = s) ∧
    (∀ (s : List City) (city : City), s.length < 4 → city.name ∉ s.map City.name →
      pinCity s city = s ++ [city]) := by
  refine ⟨fun ops => ?_, fun s city hlen hmem => pinCity_full hmem (by omega),
    fun s city hlen hmem => pinCity_append hmem hlen⟩
  have key : ∀ (l : List PinOp) (s : List City), PinInv s → PinInv (l.foldl applyPinOp s) := by
    intro l
    induction l with
    | nil => exact fun s hs => hs
    | cons op t ih => exact fun s hs => ih _ (pinInv_applyPinOp hs op)
  exact key ops [] ⟨by simp, by simp⟩

/-- Witness for C6: a 5th distinct pin at capacity is a no-op; a pin under
capacity appends. -/
theorem pin_set_invariants_witness :
    pinCity [tokyo, london, newYork, berlin] paris = [tokyo, london, newYork, berlin] ∧
    pinCity [tokyo] paris = [tokyo, paris] :=
  ⟨pin_set_invariants.2.1 _ _ (by decide) (by decide),
   pin_set_invariants.2.2 _ _ (by decide) (by decide)⟩

/-! ### C7 — toggle path vs search-select path -/

/-- **C7.** With unique pinned names: toggle-pinning an already-pinned city
removes it (the result is the pin set with that name filtered out, and the
name is gone), while selecting an already-pinned city from search leaves the
pin set unchanged; selecting an unpinned city delegates to the toggle add. -/
theorem pin_toggle_vs_select (s : List City) (city : City)
    (hnd : (s.map City.name).Nodup) :
    (city.name ∈ s.map City.name →
      pinCity s city = s.filter (fun c => decide (¬ c.name = city.name)) ∧
      city.name ∉ (pinCity s city).map City.name) ∧
    (city.name ∈ s.map City.name → handleSelect s city = s) ∧
    (city.name ∉ s.map City.name → handleSelect s city = pinCity s city) := by
  refine ⟨fun hm => ⟨pinCity_erase hm hnd, pinCity_name_not_mem hm hnd⟩,
    fun hm => ?_, fun hm => ?_⟩
  · obtain ⟨c, hc, hcn⟩ := List.mem_map.mp hm
    have hany : s.any (fun c => decide (c.name = city.name)) = true :=
      List.any_eq_true.mpr ⟨c, hc, by simp [hcn]⟩
    simp [handleSelect, hany]
  · have hany : s.any (fun c => decide (c.name = city.name)) = false := by
      rw [Bool.eq_false_iff]
      intro hj
      obtain ⟨c, hc, hcn⟩ := List.any_eq_true.mp hj
      simp only [decide_eq_true_eq] at hcn
      exact hm (hcn ▸ List.mem_map_of_mem City.name hc)
    simp [handleSelect, hany]

/-- Witness for C7: selecting the already-pinned Tokyo from search changes
nothing. -/
theorem pin_toggle_vs_select_witness :
    handleSelect [tokyo, london] tokyo = [tokyo, london] :=
  (pin_toggle_vs_select [tokyo, london] tokyo (by decide)).2.1 (by decide)

/-! ### C10 — pinning unhides the city -/

/-- **C10.** `handleCityPin` also removes the pinned city's name from the
hidden-cities set: the name is absent afterwards, a name not in the hidden set
leaves the set unchanged (the very same value), no other entry is touched, and
a hidden (hence non-featured-visible) city pinned under capacity is visible on
the map again. -/
theorem pin_unhides (catalog pinned highlighted : List City)
    (hidden featured : List String) (city : City) (hnd : hidden.Nodup) :
    city.name ∉ (handleCityPin pinned hidden city).2 ∧
    (city.name ∉ hidden → (handleCityPin pinned hidden city).2 = hidden) ∧
    (∀ n, n ≠ city.name → (n ∈ (handleCityPin pinned hidden city).2 ↔ n ∈ hidden)) ∧
    (city ∈ catalog → city.name ∉ pinned.map City.name → pinned.length < 4 →
      city ∈ visibleCities catalog (handleCityPin pinned hidden city).1 highlighted
        (handleCityPin pinned hidden city).2 featured) := by
  have hsnd : (handleCityPin pinned hidden city).2 = unhideOnPin hidden city.name := rfl
  refine ⟨?_, ?_, ?_, ?_⟩
  · rw [hsnd]
    unfold unhideOnPin
    by_cases hc : hidden.contains city.name = true
    · rw [if_pos hc]
      exact hnd.not_mem_erase
    · rw [if_neg hc]
      intro hmem
      exact hc (List.elem_eq_true_of_mem hmem)
  · intro hmem
    rw [hsnd]
    unfold unhideOnPin
    rw [if_neg (fun hc => hmem (List.mem_of_elem_eq_true hc))]
  · intro n hne
    rw [hsnd]
    unfold unhideOnPin
    by_cases hc : hidden.contains city.name = true
    · rw [if_pos hc]
      exact List.mem_erase_of_ne hne
    · rw [if_neg hc]
  · intro hcat hnm hlen
    have hfst : (handleCityPin pinned hidden city).1 = pinned ++ [city] :=
      pinCity_append hnm hlen
    unfold visibleCities
    rw [List.mem_filter]
    refine ⟨hcat, ?_⟩
    have hc2 : (((handleCityPin pinned hidden city).1).map City.name).contains city.name
        = true :=
      List.elem_eq_true_of_mem (by rw [hfst, List.map_append]; simp)
    rw [Bool.or_eq_true, Bool.or_eq_true]
    exact Or.inl (Or.inr hc2)

/-- Witness for C10: pinning Paris removes its name from the hidden set and
makes it visible. -/
theorem pin_unhides_witness :
    paris.name ∉ (handleCityPin [tokyo] ["Paris", "Berlin"] paris).2 ∧
    paris ∈ visibleCities sampleCatalog (handleCityPin [tokyo] ["Paris", "Berlin"] paris).1 []
      (handleCityPin [tokyo] ["Paris", "Berlin"] paris).2 [] :=
  ⟨(pin_unhides sampleCatalog [tokyo] [] ["Paris", "Berlin"] [] paris (by decide)).1,
   (pin_unhides sampleCatalog [tokyo] [] ["Paris", "Berlin"] [] paris (by decide)).2.2.2
     (by decide) (by decide) (by decide)⟩

/-! ### URL round-trip lemmas -/

lemma decodeSpaces_four (c1 c2 c3 : Char) (t : List Char) :
    decodeSpaces (c1 :: c2 :: c3 :: t) =
      if c1 = '%' ∧ c2 = '2' ∧ c3 = '0' then ' ' :: decodeSpaces t
      else c1 :: decodeSpaces (c2 :: c3 :: t) := rfl

lemma decodeSpaces_cons_of_ne {c : Char} (r : List Char) (hc : c ≠ '%') :
    decodeSpaces (c :: r) = c :: decodeSpaces r := by
  rcases r with _ | ⟨x, _ | ⟨y, t⟩⟩
  · rfl
  · rfl
  · rw [decodeSpaces_four, if_neg (fun h => hc h.1)]

lemma decodeSpaces_pct (X : List Char) :
    decodeSpaces ('%' :: '2' :: '0' :: X) = ' ' :: decodeSpaces X := by
  rw [decodeSpaces_four, if_pos ⟨rfl, rfl, rfl⟩]

lemma decodeSpaces_encodeSpaces_append (n : List Char) (r : List Char) :
    '%' ∉ n → decodeSpaces (encodeSpaces n ++ r) = n ++ decodeSpaces r := by
  induction n with
  | nil => intro _; rfl
  | cons c t ih =>
    intro hp
    have hp' : '%' ∉ t := fun h => hp (List.mem_cons_of_mem _ h)
    have hcp : c ≠ '%' := by
      intro hEq
      exact hp (by rw [hEq]; exact List.mem_cons_self _ _)
    unfold encodeSpaces
    by_cases hc : c = ' '
    · rw [if_pos hc, List.cons_append, List.cons_append, List.cons_append,
        decodeSpaces_pct, ih hp', hc]
      rfl
    · rw [if_neg hc, List.cons_append, decodeSpaces_cons_of_ne _ hcp, ih hp']
      rfl

lemma comma_not_mem_encodeSpaces {n : List Char} (h : ',' ∉ n) :
    ',' ∉ encodeSpaces n := by
  induction n with
  | nil => simp [encodeSpaces]
  | cons c t ih =>
    have h1 : ',' ∉ t := fun hm => h (List.mem_cons_of_mem _ hm)
    unfold encodeSpaces
    by_cases hc : c = ' '
    · rw [if_pos hc]
      intro hm
      rcases List.mem_cons.mp hm with h2 | hm
      · exact absurd h2 (by decide)
      rcases List.mem_cons.mp hm with h2 | hm
      · exact absurd h2 (by decide)
      rcases List.mem_cons.mp hm with h2 | hm
      · exact absurd h2 (by decide)
      · exact ih h1 hm
    · rw [if_neg hc]
      intro hm
      rcases List.mem_cons.mp hm with h2 | hm
      · exact h (by rw [h2]; exact List.mem_cons_self c t)
      · exact ih h1 hm

lemma splitComma_cons (c : Char) (t : List Char) :
    splitComma (c :: t) =
      if c = ',' then [] :: splitComma t else consHead c (splitComma t) := rfl

lemma splitComma_no_comma {x : List Char} : ',' ∉ x → splitComma x = [x] := by
  induction x with
  | nil => intro _; rfl
  | cons c t ih =>
    intro h
    have h1 : ',' ∉ t := fun hm => h (List.mem_cons_of_mem _ hm)
    have hc : ¬ c = ',' := by
      intro hEq
      exact h (by rw [← hEq]; exact List.mem_cons_self c t)
    rw [splitComma_cons, if_neg hc, ih h1]
    rfl

lemma splitComma_append {x : List Char} (r : List Char) :
    ',' ∉ x → splitComma (x ++ ',' :: r) = x :: splitComma r := by
  induction x with
  | nil =>
    intro _
    show splitComma (',' :: r) = [] :: splitComma r
    rw [splitComma_cons, if_pos rfl]
  | cons c t ih =>
    intro h
    have h1 : ',' ∉ t := fun hm => h (List.mem_cons_of_mem _ hm)
    have hc : ¬ c = ',' := by
      intro hEq
      exact h (by rw [← hEq]; exact List.mem_cons_self c t)
    show splitComma (c :: (t ++ ',' :: r)) = (c :: t) :: splitComma r
    rw [splitComma_cons, if_neg hc, ih h1]
    rfl

lemma splitComma_joinComma {ns : List (List Char)} :
    ns ≠ [] → (∀ n ∈ ns, ',' ∉ n) → splitComma (joinComma ns) = ns := by
  induction ns with
  | nil => intro hne _; cases hne rfl
  | cons x t ih =>
    intro _ h
    rcases t with _ | ⟨y, t'⟩
    · exact splitComma_no_comma (h x (List.mem_cons_self x []))
    · show splitComma (x ++ ',' :: joinComma (y :: t')) = x :: (y :: t')
      rw [splitComma_append _ (h x (List.mem_cons_self _ _)),
        ih (by simp) (fun n hn => h n (List.mem_cons_of_mem _ hn))]

lemma decodeSpaces_joinComma_encode (ns : List (List Char)) :
    (∀ n ∈ ns, '%' ∉ n) →
    decodeSpaces (joinComma (ns.map encodeSpaces)) = joinComma ns := by
  induction ns with
  | nil => intro _; rfl
  | cons x t ih =>
    intro h
    rcases t with _ | ⟨y, t'⟩
    · show decodeSpaces (encodeSpaces x) = x
      have hx := decodeSpaces_encodeSpaces_append x [] (h x (List.mem_cons_self _ _))
      rw [List.append_nil] at hx
      exact hx.trans (by rw [show decodeSpaces [] = ([] : List Char) from rfl, List.append_nil])
    · show decodeSpaces (encodeSpaces x ++ ',' :: joinComma ((y :: t').map encodeSpaces))
        = x ++ ',' :: joinComma (y :: t')
      rw [decodeSpaces_encodeSpaces_append x _ (h x (List.mem_cons_self _ _)),
        decodeSpaces_cons_of_ne _ (by decide),
        ih (fun n hn => h n (List.mem_cons_of_mem _ hn))]

lemma filterMap_find_pinned {catalog pinned : List City}
    (hfind : ∀ c ∈ pinned, catalog.find? (fun x => decide (x.name = c.name)) = some c) :
    (pinned.map City.name).filterMap
      (fun n => catalog.find? (fun c => decide (c.name = n))) = pinned := by
  induction pinned with
  | nil => rfl
  | cons c t ih =>
    rw [List.map_cons, List.filterMap_cons, hfind c (List.mem_cons_self c t),
      ih (fun x hx => hfind x (List.mem_cons_of_mem _ hx))]

/-! ### C9 — URL round trip -/

/-- **C9.** Writing the pinned set and home zone to the URL and reading that
URL back reproduces the identical pinned set (order preserved) and home value,
for any pinned set of catalog cities with clean display names (no comma or
percent, no surrounding whitespace, names unique in the catalog); the read
truncates to the first 4 matches and uses `home` verbatim.  Concretely, pins
{Tokyo, London} with home America/New_York serialize to
`?compare=Tokyo,London&home=America/New_York`, and loading those parameters
reproduces the pins and the home value. -/
theorem url_roundtrip (catalog pinned : List City)
    (hne : pinned ≠ [])
    (hlen : pinned.length ≤ 4)
    (hfind : ∀ c ∈ pinned, catalog.find? (fun x => decide (x.name = c.name)) = some c)
    (hclean : ∀ c ∈ pinned,
      ',' ∉ c.name.data ∧ '%' ∉ c.name.data ∧ trimChars c.name.data = c.name.data) :
    readCompare catalog (compareParamOf pinned) = pinned ∧
    (∀ h dflt : String, readHome (some h) dflt = h) ∧
    urlQuery [tokyo, london] "America/New_York"
      = "?compare=Tokyo,London&home=America/New_York" ∧
    readCompare sampleCatalog (some "Tokyo,London") = [tokyo, london] ∧
    readHome (some "America/New_York") "Europe/Sarajevo" = "America/New_York" := by
  refine ⟨?_, fun h dflt => rfl, by decide, by decide, rfl⟩
  have hparam : compareParamOf pinned
      = some ⟨joinComma (pinned.map (fun c => encodeSpaces c.name.data))⟩ := by
    unfold compareParamOf
    rw [if_pos (by cases pinned with | nil => cases hne rfl | cons a t => simp)]
  rw [hparam]
  have h1 : decodeSpaces (joinComma (pinned.map fun c => encodeSpaces c.name.data))
      = joinComma (pinned.map fun c => c.name.data) := by
    rw [show (pinned.map fun c => encodeSpaces c.name.data)
        = (pinned.map fun c => c.name.data).map encodeSpaces by rw [List.map_map]; rfl]
    refine decodeSpaces_joinComma_encode _ (fun n hn => ?_)
    obtain ⟨c, hc, rfl⟩ := List.mem_map.mp hn
    exact (hclean c hc).2.1
  have h2 : splitComma (joinComma (pinned.map fun c => c.name.data))
      = pinned.map fun c => c.name.data := by
    refine splitComma_joinComma (fun hmap => hne ?_) (fun n hn => ?_)
    · cases pinned with
      | nil => rfl
      | cons a t => simp at hmap
    · obtain ⟨c, hc, rfl⟩ := List.mem_map.mp hn
      exact (hclean c hc).1
  have h3 : ((pinned.map fun c => c.name.data).map fun p => String.mk (trimChars p))
      = pinned.map City.name := by
    rw [List.map_map]
    refine List.map_congr_left (fun c hc => ?_)
    show String.mk (trimChars c.name.data) = c.name
    rw [(hclean c hc).2.2]
  simp only [readCompare]
  rw [h1, h2, h3, filterMap_find_pinned hfind,
    if_neg (fun h0 => hne (List.length_eq_zero.mp h0)), List.take_of_length_le hlen]

/-- Witness for C9: a two-city pin set whose first name contains a space
(`"New York"` → `New%20York`) survives the write/read round trip. -/
theorem url_roundtrip_witness :
    readCompare sampleCatalog (compareParamOf [newYork, tokyo]) = [newYork, tokyo] :=
  (url_roundtrip sampleCatalog [newYork, tokyo]
    (by decide) (by decide) (by decide) (by decide)).1

/-! ### Offset-parser lemmas -/

/-- The sign factor of a parsed sign field (`m[1] === "-" ? -1 : 1`). -/
def sgnVal (sgn : List Char) : Int := if sgn = ['-'] then -1 else 1

/-- The minute value of an optional `:MM` field. -/
def mpVal : List Char → Nat
  | ':' :: d1 :: d2 :: _ => 10 * digitVal d1 + digitVal d2
  | _ => 0

/-- The offset grammar of §4.1, as a decomposition of the input into the
literal, whitespace, an optional sign, whitespace, 1–2 hour digits and an
optional two-digit `:MM` field. -/
def OffsetGrammar (cs lit ws1 sgn ws2 hs mp : List Char) : Prop :=
  cs = lit ++ ws1 ++ sgn ++ ws2 ++ hs ++ mp ∧
  (lit = ['u', 't', 'c'] ∨ lit = ['g', 'm', 't']) ∧
  (∀ c ∈ ws1, isWs c = true) ∧
  (sgn = [] ∨ sgn = ['+'] ∨ sgn = ['-']) ∧
  (∀ c ∈ ws2, isWs c = true) ∧
  (∀ c ∈ hs, c.isDigit = true) ∧
  (hs.length = 1 ∨ hs.length = 2) ∧
  (mp = [] ∨ ∃ d1 d2, mp = [':', d1, d2] ∧ d1.isDigit = true ∧ d2.isDigit = true)

lemma mpVal_nil : mpVal [] = 0 := rfl

lemma mpVal_colon (d1 d2 : Char) : mpVal [':', d1, d2] = 10 * digitVal d1 + digitVal d2 := rfl

lemma signSplit_cons (c : Char) (t : List Char) :
    signSplit (c :: t) =
      if c = '+' then ((1 : Int), t) else if c = '-' then (-1, t) else (1, c :: t) := rfl

lemma stripLit_utc (r : List Char) : stripLit (['u', 't', 'c'] ++ r) = some r := by
  have hc : List.take 3 (['u', 't', 'c'] ++ r) = ['u', 't', 'c'] := rfl
  unfold stripLit
  rw [if_pos (Or.inl hc)]
  rfl

lemma stripLit_gmt (r : List Char) : stripLit (['g', 'm', 't'] ++ r) = some r := by
  have hc : List.take 3 (['g', 'm', 't'] ++ r) = ['g', 'm', 't'] := rfl
  unfold stripLit
  rw [if_pos (Or.inr hc)]
  rfl

lemma matchMain_of_stripLit {cs r0 : List Char} (h : stripLit cs = some r0) :
    matchMain cs =
      match parseHM ((signSplit (r0.dropWhile isWs)).2.dropWhile isWs) with
      | some hm => some ((signSplit (r0.dropWhile isWs)).1 * hm)
      | none => none := by
  unfold matchMain
  rw [h]

lemma stripLit_inv {cs r : List Char} (h : stripLit cs = some r) :
    cs = ['u', 't', 'c'] ++ r ∨ cs = ['g', 'm', 't'] ++ r := by
  unfold stripLit at h
  by_cases hc : cs.take 3 = ['u', 't', 'c'] ∨ cs.take 3 = ['g', 'm', 't']
  · rw [if_pos hc] at h
    injection h with h1
    rcases hc with hc | hc
    · exact Or.inl (by rw [← h1, ← hc]; exact (List.take_append_drop 3 cs).symm)
    · exact Or.inr (by rw [← h1, ← hc]; exact (List.take_append_drop 3 cs).symm)
  · rw [if_neg hc] at h
    cases h

lemma isWs_eq_false_of_isDigit {c : Char} (h : c.isDigit = true) : isWs c = false := by
  cases hb : isWs c with
  | false => rfl
  | true =>
    exfalso
    unfold isWs at hb
    simp only [Bool.or_eq_true, decide_eq_true_eq] at hb
    rcases hb with ((((h1 | h1) | h1) | h1) | h1) | h1 <;>
      rw [h1] at h <;> exact absurd h (by decide)

lemma dropWhile_append_all {p : Char → Bool} {l₁ : List Char} (l₂ : List Char)
    (h : ∀ c ∈ l₁, p c = true) :
    (l₁ ++ l₂).dropWhile p = l₂.dropWhile p := by
  induction l₁ with
  | nil => rfl
  | cons c t ih =>
    rw [List.cons_append, List.dropWhile_cons_of_pos (h c (List.mem_cons_self _ _)),
      ih (fun x hx => h x (List.mem_cons_of_mem _ hx))]

lemma takeWhile_dropWhile_append {p : Char → Bool} {l₁ l₂ : List Char}
    (h1 : ∀ c ∈ l₁, p c = true)
    (h2 : ∀ c t, l₂ = c :: t → p c = false) :
    (l₁ ++ l₂).takeWhile p = l₁ ∧ (l₁ ++ l₂).dropWhile p = l₂ := by
  induction l₁ with
  | nil =>
    rcases l₂ with _ | ⟨c, t⟩
    · exact ⟨rfl, rfl⟩
    · have hc := h2 c t rfl
      constructor
      · rw [List.nil_append, List.takeWhile_cons_of_neg (by simp [hc])]
      · rw [List.nil_append, List.dropWhile_cons_of_neg (by simp [hc])]
  | cons c t ih =>
    obtain ⟨iht, ihd⟩ := ih (fun x hx => h1 x (List.mem_cons_of_mem _ hx))
    constructor
    · rw [List.cons_append,
        List.takeWhile_cons_of_pos (h1 c (List.mem_cons_self _ _)), iht]
    · rw [List.cons_append,
        List.dropWhile_cons_of_pos (h1 c (List.mem_cons_self _ _)), ihd]

lemma parseHM_render {hs mp : List Char} (hd : ∀ c ∈ hs, c.isDigit = true)
    (hl : hs.length = 1 ∨ hs.length = 2)
    (hmp : mp = [] ∨ ∃ d1 d2, mp = [':', d1, d2] ∧ d1.isDigit = true ∧ d2.isDigit = true) :
    parseHM (hs ++ mp) = some (digitsVal hs * 60 + mpVal mp) := by
  have hstop : ∀ c t, mp = c :: t → Char.isDigit c = false := by
    rcases hmp with rfl | ⟨d1, d2, rfl, _, _⟩
    · intro c t h
      cases h
    · intro c t h
      injection h with h1 _
      rw [← h1]
      rfl
  obtain ⟨htake, hdrop⟩ := takeWhile_dropWhile_append hd hstop
  simp only [parseHM]
  rw [htake, hdrop, if_neg (by rcases hl with h | h <;> simp [h])]
  rcases hmp with rfl | ⟨d1, d2, rfl, hd1, hd2⟩
  · show some (digitsVal hs * 60) = some (digitsVal hs * 60 + mpVal [])
    rw [mpVal_nil, Nat.add_zero]
  · show (if d1.isDigit && d2.isDigit then
        some (digitsVal hs * 60 + (10 * digitVal d1 + digitVal d2)) else none)
      = some (digitsVal hs * 60 + mpVal (':' :: d1 :: d2 :: []))
    rw [if_pos (by rw [hd1, hd2]; rfl), mpVal_colon]

lemma matchMain_render {ws1 sgn ws2 hs mp : List Char}
    (hw1 : ∀ c ∈ ws1, isWs c = true)
    (hsgn : sgn = [] ∨ sgn = ['+'] ∨ sgn = ['-'])
    (hw2 : ∀ c ∈ ws2, isWs c = true)
    (hd : ∀ c ∈ hs, c.isDigit = true)
    (hl : hs.length = 1 ∨ hs.length = 2)
    (hmp : mp = [] ∨ ∃ d1 d2, mp = [':', d1, d2] ∧ d1.isDigit = true ∧ d2.isDigit = true)
    {lit : List Char} (hlit : lit = ['u', 't', 'c'] ∨ lit = ['g', 'm', 't']) :
    matchMain (lit ++ ws1 ++ sgn ++ ws2 ++ hs ++ mp)
      = some (sgnVal sgn * (digitsVal hs * 60 + mpVal mp)) := by
  obtain ⟨d, hs', rfl⟩ : ∃ d t, hs = d :: t := by
    rcases hs with _ | ⟨d, t⟩
    · rcases hl with h | h <;> simp at h
    · exact ⟨d, t, rfl⟩
  have hdd : d.isDigit = true := hd d (List.mem_cons_self _ _)
  have hdw : isWs d = false := isWs_eq_false_of_isDigit hdd
  have hdp : ¬ d = '+' := fun hEq => by rw [hEq] at hdd; exact absurd hdd (by decide)
  have hdm : ¬ d = '-' := fun hEq => by rw [hEq] at hdd; exact absurd hdd (by decide)
  have hPH : parseHM (d :: (hs' ++ mp)) = some (digitsVal (d :: hs') * 60 + mpVal mp) := by
    rw [← List.cons_append]
    exact parseHM_render hd hl hmp
  have hdropHs : (d :: (hs' ++ mp)).dropWhile isWs = d :: (hs' ++ mp) :=
    List.dropWhile_cons_of_neg (by simp [hdw])
  rcases hsgn with rfl | rfl | rfl
  · -- no sign
    simp only [List.append_assoc, List.nil_append, List.cons_append]
    have hstrip : stripLit (lit ++ (ws1 ++ (ws2 ++ (d :: (hs' ++ mp)))))
        = some (ws1 ++ (ws2 ++ (d :: (hs' ++ mp)))) := by
      rcases hlit with rfl | rfl
      · exact stripLit_utc _
      · exact stripLit_gmt _
    rw [matchMain_of_stripLit hstrip]
    have hr1 : (ws1 ++ (ws2 ++ (d :: (hs' ++ mp)))).dropWhile isWs = d :: (hs' ++ mp) := by
      rw [dropWhile_append_all _ hw1, dropWhile_append_all _ hw2, hdropHs]
    rw [hr1, signSplit_cons, if_neg hdp, if_neg hdm]
    rw [show ((1 : Int), d :: (hs' ++ mp)).2 = d :: (hs' ++ mp) from rfl, hdropHs, hPH]
    rfl
  · -- '+'
    simp only [List.append_assoc, List.cons_append, List.nil_append]
    have hstrip : stripLit (lit ++ (ws1 ++ ('+' :: (ws2 ++ (d :: (hs' ++ mp))))))
        = some (ws1 ++ ('+' :: (ws2 ++ (d :: (hs' ++ mp))))) := by
      rcases hlit with rfl | rfl
      · exact stripLit_utc _
      · exact stripLit_gmt _
    rw [matchMain_of_stripLit hstrip]
    have hr1 : (ws1 ++ ('+' :: (ws2 ++ (d :: (hs' ++ mp))))).dropWhile isWs
        = '+' :: (ws2 ++ (d :: (hs' ++ mp))) := by
      rw [dropWhile_append_all _ hw1]
      exact List.dropWhile_cons_of_neg (by decide)
    rw [hr1, signSplit_cons, if_pos rfl]
    rw [show ((1 : Int), ws2 ++ (d :: (hs' ++ mp))).2 = ws2 ++ (d :: (hs' ++ mp)) from rfl]
    rw [dropWhile_append_all _ hw2, hdropHs, hPH]
    rfl
  · -- '-'
    simp only [List.append_assoc, List.cons_append, List.nil_append]
    have hstrip : stripLit (lit ++ (ws1 ++ ('-' :: (ws2 ++ (d :: (hs' ++ mp))))))
        = some (ws1 ++ ('-' :: (ws2 ++ (d :: (hs' ++ mp))))) := by
      rcases hlit with rfl | rfl
      · exact stripLit_utc _
      · exact stripLit_gmt _
    rw [matchMain_of_stripLit hstrip]
    have hr1 : (ws1 ++ ('-' :: (ws2 ++ (d :: (hs' ++ mp))))).dropWhile isWs
        = '-' :: (ws2 ++ (d :: (hs' ++ mp))) := by
      rw [dropWhile_append_all _ hw1]
      exact List.dropWhile_cons_of_neg (by decide)
    rw [hr1, signSplit_cons, if_neg (by decide), if_pos rfl]
    rw [show ((-1 : Int), ws2 ++ (d :: (hs' ++ mp))).2 = ws2 ++ (d :: (hs' ++ mp)) from rfl]
    rw [dropWhile_append_all _ hw2, hdropHs, hPH]
    rfl

lemma parseHM_inv {r : List Char} {hm : ℕ} (h : parseHM r = some hm) :
    ∃ hs mp, r = hs ++ mp ∧ (∀ c ∈ hs, c.isDigit = true) ∧
      (hs.length = 1 ∨ hs.length = 2) ∧
      (mp = [] ∨ ∃ d1 d2, mp = [':', d1, d2] ∧ d1.isDigit = true ∧ d2.isDigit = true) ∧
      hm = digitsVal hs * 60 + mpVal mp := by
  simp only [parseHM] at h
  by_cases hcond : (r.takeWhile Char.isDigit).length = 0 ∨
      2 < (r.takeWhile Char.isDigit).length
  · rw [if_pos hcond] at h
    cases h
  · rw [if_neg hcond] at h
    push_neg at hcond
    refine ⟨r.takeWhile Char.isDigit, r.dropWhile Char.isDigit,
      (List.takeWhile_append_dropWhile _ _).symm,
      fun c hc => List.mem_takeWhile_imp hc, by omega, ?_⟩
    split at h
    · rename_i heq
      injection h with h1
      rw [heq, mpVal_nil]
      exact ⟨Or.inl rfl, by omega⟩
    · rename_i d1 d2 heq
      split at h
      · rename_i hdig
        obtain ⟨hd1, hd2⟩ := Bool.and_eq_true _ _ |>.mp hdig
        injection h with h1
        rw [heq, mpVal_colon]
        exact ⟨Or.inr ⟨d1, d2, rfl, hd1, hd2⟩, by omega⟩
      · cases h
    · cases h

lemma matchMain_sound {cs : List Char} {v : Int} (h : matchMain cs = some v) :
    ∃ lit ws1 sgn ws2 hs mp, OffsetGrammar cs lit ws1 sgn ws2 hs mp ∧
      v = sgnVal sgn * (digitsVal hs * 60 + mpVal mp) := by
  unfold matchMain at h
  rcases hs0 : stripLit cs with _ | r0
  · rw [hs0] at h
    cases h
  · rw [hs0] at h
    have h' : (match parseHM ((signSplit (r0.dropWhile isWs)).2.dropWhile isWs) with
        | some hm => some ((signSplit (r0.dropWhile isWs)).1 * (hm : Int))
        | none => none) = some v := h
    rcases hph : parseHM ((signSplit (r0.dropWhile isWs)).2.dropWhile isWs) with _ | hm
    · rw [hph] at h'
      cases h'
    · rw [hph] at h'
      have hv : v = (signSplit (r0.dropWhile isWs)).1 * hm := by
        have h'' : some ((signSplit (r0.dropWhile isWs)).1 * (hm : Int)) = some v := h'
        injection h'' with h1
        exact h1.symm
      obtain ⟨hs, mp, hr3, hdig, hlen, hmp, hhm⟩ := parseHM_inv hph
      obtain ⟨lit, hlitp, hcseq⟩ : ∃ lit,
          (lit = ['u', 't', 'c'] ∨ lit = ['g', 'm', 't']) ∧ cs = lit ++ r0 := by
        rcases stripLit_inv hs0 with hcase | hcase
        · exact ⟨_, Or.inl rfl, hcase⟩
        · exact ⟨_, Or.inr rfl, hcase⟩
      have hw1 : ∀ c ∈ r0.takeWhile isWs, isWs c = true :=
        fun c hc => List.mem_takeWhile_imp hc
      obtain ⟨sgn, hsgnd, hr1eq, hsv⟩ : ∃ sgn,
          (sgn = [] ∨ sgn = ['+'] ∨ sgn = ['-']) ∧
          r0.dropWhile isWs = sgn ++ (signSplit (r0.dropWhile isWs)).2 ∧
          (signSplit (r0.dropWhile isWs)).1 = sgnVal sgn := by
        rcases hr1 : r0.dropWhile isWs with _ | ⟨c, t⟩
        · exact ⟨[], Or.inl rfl, rfl, rfl⟩
        · by_cases hcp : c = '+'
          · subst hcp
            refine ⟨['+'], Or.inr (Or.inl rfl), ?_, ?_⟩
            · rw [signSplit_cons, if_pos rfl]
              rfl
            · rw [signSplit_cons, if_pos rfl]
              rfl
          · by_cases hcm : c = '-'
            · subst hcm
              refine ⟨['-'], Or.inr (Or.inr rfl), ?_, ?_⟩
              · rw [signSplit_cons, if_neg (by decide), if_pos rfl]
                rfl
              · rw [signSplit_cons, if_neg (by decide), if_pos rfl]
                rfl
            · refine ⟨[], Or.inl rfl, ?_, ?_⟩
              · rw [signSplit_cons, if_neg hcp, if_neg hcm]
                rfl
              · rw [signSplit_cons, if_neg hcp, if_neg hcm]
                rfl
      refine ⟨lit, r0.takeWhile isWs, sgn,
        ((signSplit (r0.dropWhile isWs)).2).takeWhile isWs, hs, mp,
        ⟨?_, hlitp, hw1, hsgnd, fun c hc => List.mem_takeWhile_imp hc,
          hdig, hlen, hmp⟩, ?_⟩
      · have e0 : r0 = r0.takeWhile isWs ++ r0.dropWhile isWs :=
          (List.takeWhile_append_dropWhile _ _).symm
        have e2 : (signSplit (r0.dropWhile isWs)).2
            = ((signSplit (r0.dropWhile isWs)).2).takeWhile isWs ++ (hs ++ mp) := by
          conv_lhs => rw [← List.takeWhile_append_dropWhile isWs
            (signSplit (r0.dropWhile isWs)).2]
          rw [hr3]
        rw [hcseq]
        conv_lhs => rw [e0, hr1eq, e2]
        simp [List.append_assoc]
      · rw [hv, hsv, hhm]
        push_cast
        ring

/-! ### C2 — the `utc`/`gmt` literal is mandatory -/

/-- Counterexample to C2: trimmed lower-cased inputs that match the offset
grammar except for omitting the `utc`/`gmt` literal are rejected by the
parser, not accepted. -/
theorem bare_offset_rejected :
    parseOffsetQuery "+1" = none ∧ parseOffsetQuery "-5" = none ∧
    parseOffsetQuery "5:30" = none :=
  ⟨by decide, by decide, by decide⟩

/-- **C2 (amended).** The `utc`/`gmt` literal is mandatory, not optional: any
input whose text does not begin with the literal — in particular every bare
signed offset such as "+1" — makes the parser return the absent result. -/
theorem parseOffsetQuery_requires_literal (s : String)
    (h : stripLit s.data = none) : parseOffsetQuery s = none := by
  have hm : matchMain s.data = none := by
    unfold matchMain
    rw [h]
  have h1 : ¬ (s = "utc" ∨ s = "gmt") := by
    rintro (rfl | rfl)
    · exact absurd h (by decide)
    · exact absurd h (by decide)
  unfold parseOffsetQuery
  rw [hm]
  show (if (s = "utc" ∨ s = "gmt") then some 0 else none) = none
  rw [if_neg h1]

/-- Witness for the amended C2 at a concrete literal-free input. -/
theorem parseOffsetQuery_requires_literal_witness :
    parseOffsetQuery "+5:30" = none :=
  parseOffsetQuery_requires_literal "+5:30" (by decide)

/-! ### C3 — parser semantics -/

/-- **C3.** Every input matching the offset grammar parses to
`sign × (hours×60 + minutes)`; every accepted input is either bare `utc`/`gmt`
(value 0) or matches the grammar with that value (so non-matching text gets
the absent result); and concretely `"utc+1" ↦ 60`, `"gmt-5:30" ↦ -330`,
`"utc" ↦ 0`, `"utc+99" ↦ 5940` (no range validation), `"banana" ↦ none`. -/
theorem parseOffsetQuery_semantics :
    (∀ (s : String) (lit ws1 sgn ws2 hs mp : List Char),
      OffsetGrammar s.data lit ws1 sgn ws2 hs mp →
      parseOffsetQuery s = some (sgnVal sgn * (digitsVal hs * 60 + mpVal mp))) ∧
    (∀ (s : String) (v : Int), parseOffsetQuery s = some v →
      ((s = "utc" ∨ s = "gmt") ∧ v = 0) ∨
      ∃ lit ws1 sgn ws2 hs mp, OffsetGrammar s.data lit ws1 sgn ws2 hs mp ∧
        v = sgnVal sgn * (digitsVal hs * 60 + mpVal mp)) ∧
    parseOffsetQuery "utc+1" = some 60 ∧
    parseOffsetQuery "gmt-5:30" = some (-330) ∧
    parseOffsetQuery "utc" = some 0 ∧
    parseOffsetQuery "utc+99" = some 5940 ∧
    parseOffsetQuery "banana" = none := by
  refine ⟨?_, ?_, by decide, by decide, by decide, by decide, by decide⟩
  · intro s lit ws1 sgn ws2 hs mp hg
    obtain ⟨hcs, hlit, hw1, hsgn, hw2, hd, hl, hmp⟩ := hg
    have hmm : matchMain s.data
        = some (sgnVal sgn * (digitsVal hs * 60 + mpVal mp)) := by
      rw [hcs]
      exact matchMain_render hw1 hsgn hw2 hd hl hmp hlit
    unfold parseOffsetQuery
    rw [hmm]
  · intro s v hp
    unfold parseOffsetQuery at hp
    rcases hmm : matchMain s.data with _ | w
    · rw [hmm] at hp
      have hp' : (if (s = "utc" ∨ s = "gmt") then some 0 else none) = some v := hp
      by_cases hb : s = "utc" ∨ s = "gmt"
      · rw [if_pos hb] at hp'
        injection hp' with h1
        exact Or.inl ⟨hb, h1.symm⟩
      · rw [if_neg hb] at hp'
        cases hp'
    · rw [hmm] at hp
      have hp' : some w = some v := hp
      injection hp' with h1
      exact Or.inr (matchMain_sound (h1 ▸ hmm))

/-- Witness for C3: the grammar law applied to the concrete decomposition of
`"gmt +07:05"`. -/
theorem parseOffsetQuery_semantics_witness :
    parseOffsetQuery "gmt +07:05"
      = some (sgnVal ['+'] * (digitsVal ['0', '7'] * 60 + mpVal [':', '0', '5'])) :=
  parseOffsetQuery_semantics.1 "gmt +07:05"
    ['g', 'm', 't'] [' '] ['+'] [] ['0', '7'] [':', '0', '5']
    ⟨by decide, by decide, by decide, by decide, by decide, by decide, by decide,
      Or.inr ⟨'0', '5', rfl, rfl, rfl⟩⟩

/-! ### Grouping lemmas (C1) -/

/-- Flatten a grouped list: the order the grouped dropdown displays. -/
def flatGroups (gs : List Group) : List City := (gs.map Prod.snd).flatten

/-- Well-formedness of an accumulated grouping: group keys are pairwise
distinct and every city sits in its own country's group. -/
def GroupsWF (gs : List Group) : Prop :=
  (gs.map Prod.fst).Nodup ∧ ∀ g ∈ gs, ∀ x ∈ g.2, x.country = g.1

lemma flatGroups_nil : flatGroups [] = [] := rfl

lemma flatGroups_append (a b : List Group) :
    flatGroups (a ++ b) = flatGroups a ++ flatGroups b := by
  simp [flatGroups]

lemma flatGroups_cons (g : Group) (gs : List Group) :
    flatGroups (g :: gs) = g.2 ++ flatGroups gs := by
  simp [flatGroups]

/-- When the city's country already has a group, `groupInsert` appends the
city into that group; this isolates the decomposition used below. -/
lemma groupInsert_mem_decomp {acc : List Group} {c : City}
    (hW : GroupsWF acc)
    (hmem : acc.any (fun g => decide (g.1 = c.country)) = true) :
    ∃ l₁ cs l₂, acc = l₁ ++ (c.country, cs) :: l₂ ∧
      groupInsert acc c = l₁ ++ (c.country, cs ++ [c]) :: l₂ ∧
      (∀ x ∈ flatGroups l₁, ¬ x.country = c.country) ∧
      (∀ x ∈ cs, x.country = c.country) ∧
      (∀ x ∈ flatGroups l₂, ¬ x.country = c.country) := by
  obtain ⟨g, hg, hgc⟩ := List.any_eq_true.mp hmem
  simp only [decide_eq_true_eq] at hgc
  obtain ⟨l₁, l₂, rfl⟩ := List.append_of_mem hg
  have hkeys := hW.1
  rw [List.map_append, List.map_cons] at hkeys
  have hnodup := List.nodup_middle.mp hkeys
  rw [List.nodup_cons] at hnodup
  have hgnotin := hnodup.1
  rw [List.mem_append] at hgnotin
  push_neg at hgnotin
  have hne1 : ∀ g' ∈ l₁, ¬ g'.1 = c.country := by
    intro g' hg' hEq
    exact hgnotin.1 (by rw [hgc, ← hEq]; exact List.mem_map_of_mem _ hg')
  have hne2 : ∀ g' ∈ l₂, ¬ g'.1 = c.country := by
    intro g' hg' hEq
    exact hgnotin.2 (by rw [hgc, ← hEq]; exact List.mem_map_of_mem _ hg')
  refine ⟨l₁, g.2, l₂, by rw [← hgc], ?_, ?_, ?_, ?_⟩
  · unfold groupInsert
    rw [if_pos hmem, List.map_append, List.map_cons]
    have key : ∀ (L : List Group), (∀ a ∈ L, ¬ a.1 = c.country) →
        L.map (fun g' => if g'.1 = c.country then (g'.1, g'.2 ++ [c]) else g') = L := by
      intro L hL
      induction L with
      | nil => rfl
      | cons a t ihL =>
        rw [List.map_cons, if_neg (hL a (List.mem_cons_self _ _)),
          ihL (fun x hx => hL x (List.mem_cons_of_mem _ hx))]
    rw [key l₁ hne1, key l₂ hne2, if_pos hgc, hgc]
  · intro x hx
    obtain ⟨s, hs, hxs⟩ := List.mem_flatten.mp hx
    obtain ⟨g', hg', rfl⟩ := List.mem_map.mp hs
    have hty := hW.2 g' (List.mem_append.mpr (Or.inl hg')) x hxs
    rw [hty]
    exact hne1 g' hg'
  · intro x hx
    have hty := hW.2 g (List.mem_append.mpr (Or.inr (List.mem_cons_self _ _))) x hx
    rw [hty, hgc]
  · intro x hx
    obtain ⟨s, hs, hxs⟩ := List.mem_flatten.mp hx
    obtain ⟨g', hg', rfl⟩ := List.mem_map.mp hs
    have hty := hW.2 g'
      (List.mem_append.mpr (Or.inr (List.mem_cons_of_mem _ hg'))) x hxs
    rw [hty]
    exact hne2 g' hg'

/-- Inserting one city permutes the flattened grouping by consing the city. -/
lemma flatGroups_groupInsert_perm {acc : List Group} {c : City} (hW : GroupsWF acc) :
    (flatGroups (groupInsert acc c)).Perm (c :: flatGroups acc) := by
  by_cases hmem : acc.any (fun g => decide (g.1 = c.country)) = true
  · obtain ⟨l₁, cs, l₂, hacc, hins, _, _, _⟩ := groupInsert_mem_decomp hW hmem
    rw [hins, hacc, flatGroups_append, flatGroups_cons, flatGroups_append, flatGroups_cons]
    have h1 : flatGroups l₁ ++ ((cs ++ [c]) ++ flatGroups l₂)
        = (flatGroups l₁ ++ cs) ++ c :: flatGroups l₂ := by
      simp
    have h2 : (c :: (flatGroups l₁ ++ (cs ++ flatGroups l₂)) : List City)
        = c :: ((flatGroups l₁ ++ cs) ++ flatGroups l₂) := by
      simp
    rw [h1, h2]
    exact List.perm_middle
  · unfold groupInsert
    rw [if_neg hmem, flatGroups_append, flatGroups_cons, flatGroups_nil, List.append_nil]
    simp

/-- Inserting one city preserves the per-country filter of the flattening. -/
lemma flatGroups_groupInsert_filter {acc : List Group} {c : City}
    (hW : GroupsWF acc) (k : String) :
    (flatGroups (groupInsert acc c)).filter (fun x => decide (x.country = k))
      = (flatGroups acc ++ [c]).filter (fun x => decide (x.country = k)) := by
  by_cases hmem : acc.any (fun g => decide (g.1 = c.country)) = true
  · obtain ⟨l₁, cs, l₂, hacc, hins, hl₁, hcs, hl₂⟩ := groupInsert_mem_decomp hW hmem
    rw [hins, hacc, flatGroups_append, flatGroups_cons, flatGroups_append, flatGroups_cons]
    simp only [List.filter_append]
    by_cases hk : c.country = k
    · have h2 : (flatGroups l₂).filter (fun x => decide (x.country = k)) = [] := by
        rw [List.filter_eq_nil_iff]
        intro x hx
        simp only [decide_eq_true_eq]
        rw [← hk]
        exact hl₂ x hx
      have hcflt : ([c].filter (fun x => decide (x.country = k))) = [c] := by
        simp [hk]
      simp [h2, hcflt]
    · have hcflt : ([c].filter (fun x => decide (x.country = k))) = [] := by
        simp [hk]
      simp [hcflt]
  · unfold groupInsert
    rw [if_neg hmem, flatGroups_append, flatGroups_cons, flatGroups_nil, List.append_nil]

/-- Inserting one city preserves grouping well-formedness. -/
lemma groupsWF_groupInsert {acc : List Group} (hW : GroupsWF acc) (c : City) :
    GroupsWF (groupInsert acc c) := by
  by_cases hmem : acc.any (fun g => decide (g.1 = c.country)) = true
  · obtain ⟨l₁, cs, l₂, hacc, hins, _, _, _⟩ := groupInsert_mem_decomp hW hmem
    obtain ⟨hkeys, hty⟩ := hW
    rw [hacc] at hkeys hty
    rw [hins]
    constructor
    · simpa using hkeys
    · intro g hg x hx
      rcases List.mem_append.mp hg with hg1 | hg2
      · exact hty g (List.mem_append.mpr (Or.inl hg1)) x hx
      rcases List.mem_cons.mp hg2 with rfl | hg3
      · rcases List.mem_append.mp hx with hx1 | hx2
        · exact hty (c.country, cs)
            (List.mem_append.mpr (Or.inr (List.mem_cons_self _ _))) x hx1
        · simp only [List.mem_singleton] at hx2
          rw [hx2]
      · exact hty g
          (List.mem_append.mpr (Or.inr (List.mem_cons_of_mem _ hg3))) x hx
  · unfold groupInsert
    rw [if_neg hmem]
    obtain ⟨hkeys, hty⟩ := hW
    constructor
    · rw [List.map_append, List.nodup_append]
      refine ⟨hkeys, by simp, ?_⟩
      intro a ha hb
      simp only [List.map_cons, List.map_nil, List.mem_cons, List.not_mem_nil,
        or_false] at hb
      apply hmem
      rw [List.any_eq_true]
      obtain ⟨g, hg, hfst⟩ := List.mem_map.mp ha
      exact ⟨g, hg, by simp [hfst, hb]⟩
    · intro g hg x hx
      rcases List.mem_append.mp hg with hg1 | hg2
      · exact hty g hg1 x hx
      · simp only [List.mem_singleton] at hg2
        subst hg2
        simp only [List.mem_singleton] at hx
        rw [hx]

/-- The grouped view of any list is well-formed, its flattening is a
permutation of the list, and it preserves every per-country subsequence. -/
lemma groupByCountry_props (xs : List City) :
    GroupsWF (groupByCountry xs) ∧
    (flatGroups (groupByCountry xs)).Perm xs ∧
    ∀ k, (flatGroups (groupByCountry xs)).filter (fun x => decide (x.country = k))
      = xs.filter (fun x => decide (x.country = k)) := by
  induction xs using List.reverseRecOn with
  | nil =>
    exact ⟨⟨by simp [groupByCountry], by simp [groupByCountry]⟩,
      by simp [groupByCountry, flatGroups],
      fun k => by simp [groupByCountry, flatGroups]⟩
  | append_singleton l c ih =>
    obtain ⟨hW, hperm, hfil⟩ := ih
    have hstep : groupByCountry (l ++ [c]) = groupInsert (groupByCountry l) c := by
      unfold groupByCountry
      rw [List.foldl_append]
      rfl
    refine ⟨?_, ?_, ?_⟩
    · rw [hstep]
      exact groupsWF_groupInsert hW c
    · rw [hstep]
      have p1 : (flatGroups (groupInsert (groupByCountry l) c)).Perm
          (c :: flatGroups (groupByCountry l)) := flatGroups_groupInsert_perm hW
      have p2 : ((c :: flatGroups (groupByCountry l)) : List City).Perm (c :: l) :=
        hperm.cons c
      have p3 : ((c :: l) : List City).Perm (l ++ [c]) := by
        simpa using (@List.perm_middle City c l []).symm
      exact (p1.trans p2).trans p3
    · intro k
      rw [hstep, flatGroups_groupInsert_filter hW k]
      simp only [List.filter_append, hfil k]

/-! ### Search characterization lemmas -/

/-- The free-text branch of the `results` memo, spelled out. -/
lemma searchResults_freeText {catalog : List City} {tzOffset : String → Option Int}
    {query : String}
    (hq0 : ¬ (normalizeQuery query).length = 0)
    (hoff : parseOffsetQuery (normalizeQuery query) = none) :
    searchResults catalog tzOffset query =
      (let q := normalizeQuery query
      let cityMatches := catalog.filter (fun c => containsSub (toLowerStr c.name).data q.data)
      let seen := cityMatches.map City.name
      let countryMatches := catalog.filter (fun c =>
        !seen.contains c.name && containsSub (toLowerStr c.country).data q.data)
      let combined := (cityMatches ++ countryMatches).take 12
      ⟨combined, groupByCountry combined,
        decide (0 < countryMatches.length) ||
          decide (1 < ((combined.map City.country).dedup).length)⟩) := by
  simp only [searchResults]
  rw [if_neg hq0, hoff]

/-- The offset branch of the `results` memo, spelled out. -/
lemma searchResults_offset {catalog : List City} {tzOffset : String → Option Int}
    {query : String} {off : Int}
    (hq0 : ¬ (normalizeQuery query).length = 0)
    (hoff : parseOffsetQuery (normalizeQuery query) = some off) :
    searchResults catalog tzOffset query =
      ⟨(catalog.filter (offsetKeep tzOffset off)).take 12,
        groupByCountry ((catalog.filter (offsetKeep tzOffset off)).take 12), true⟩ := by
  simp only [searchResults]
  rw [if_neg hq0, hoff]

/-- In every branch, the grouped output is `groupByCountry` of the results. -/
lemma searchResults_grouped_eq (catalog : List City) (tzOffset : String → Option Int)
    (query : String) :
    (searchResults catalog tzOffset query).grouped
      = groupByCountry (searchResults catalog tzOffset query).results := by
  simp only [searchResults]
  split
  · rfl
  · split
    · rfl
    · rfl

/-! ### C1 — grouping is a re-bucketing, not an order-preserving view -/

/-- A three-city catalog whose name matches interleave two countries. -/
def exCatalog : List City :=
  [⟨"aa", "P", "tzA", 0, 0⟩, ⟨"ab", "Q", "tzB", 0, 0⟩, ⟨"ac", "P", "tzC", 0, 0⟩]

/-- Counterexample to C1: for the catalog `exCatalog` and query `"a"` the
grouped-then-flattened sequence is `[aa, ac, ab]` while the ungrouped result
list is `[aa, ab, ac]` — grouping re-buckets interleaved countries, so the
flattened sequence is not the ungrouped order. -/
theorem grouped_flatten_ne_ungrouped :
    flatResults (searchResults exCatalog (fun _ => none) "a")
      ≠ (searchResults exCatalog (fun _ => none) "a").results := by
  decide

/-- **C1 (amended).** For every catalog, timezone oracle and query, flattening
the grouped search results yields a permutation of the ungrouped result list
that preserves the relative order of cities within each country (so the same
cities, with each country's cities in ungrouped order); the full sequence
equality claimed by the spec fails when name matches interleave countries. -/
theorem flatResults_perm_results (catalog : List City)
    (tzOffset : String → Option Int) (query : String) :
    (flatResults (searchResults catalog tzOffset query)).Perm
      (searchResults catalog tzOffset query).results ∧
    ∀ k, (flatResults (searchResults catalog tzOffset query)).filter
        (fun x => decide (x.country = k))
      = (searchResults catalog tzOffset query).results.filter
        (fun x => decide (x.country = k)) := by
  by_cases hs : (searchResults catalog tzOffset query).showGroups = true
  · unfold flatResults
    rw [if_pos hs, searchResults_grouped_eq]
    obtain ⟨_, hperm, hfil⟩ :=
      groupByCountry_props (searchResults catalog tzOffset query).results
    exact ⟨hperm, hfil⟩
  · unfold flatResults
    rw [if_neg hs]
    exact ⟨List.Perm.refl _, fun k => rfl⟩

/-! ### C4 — free-text search characterization -/

/-- The spec's candidate list (a) (§4.2): cities whose name contains the query
case-insensitively, in catalog order. -/
def specNameMatches (catalog : List City) (q : String) : List City :=
  catalog.filter (fun c => containsSub (toLowerStr c.name).data q.data)

/-- The spec's candidate list (b) (§4.2): cities not already in (a) whose
country contains the query case-insensitively, in catalog order. -/
def specCountryMatches (catalog : List City) (q : String) : List City :=
  catalog.filter (fun c =>
    decide (c ∉ specNameMatches catalog q) && containsSub (toLowerStr c.country).data q.data)

/-- **C4.** For every non-offset, non-empty query (over a catalog with unique
names), the result list is exactly list (a) followed by the disjoint list (b),
truncated to 12 — hence its length is at most 12. -/
theorem freeText_results (catalog : List City) (tzOffset : String → Option Int)
    (query : String)
    (hnodup : (catalog.map City.name).Nodup)
    (hne : normalizeQuery query ≠ "")
    (hoff : parseOffsetQuery (normalizeQuery query) = none) :
    (searchResults catalog tzOffset query).results
      = (specNameMatches catalog (normalizeQuery query)
          ++ specCountryMatches catalog (normalizeQuery query)).take 12 ∧
    (∀ c ∈ specNameMatches catalog (normalizeQuery query),
      c ∉ specCountryMatches catalog (normalizeQuery query)) ∧
    (searchResults catalog tzOffset query).results.length ≤ 12 := by
  have hq0 : ¬ (normalizeQuery query).length = 0 := by
    intro h0
    exact hne (String.ext (List.length_eq_zero.mp h0))
  have hcm : catalog.filter (fun c =>
      !((catalog.filter (fun c' =>
          containsSub (toLowerStr c'.name).data (normalizeQuery query).data)).map
            City.name).contains c.name
        && containsSub (toLowerStr c.country).data (normalizeQuery query).data)
      = specCountryMatches catalog (normalizeQuery query) := by
    unfold specCountryMatches specNameMatches
    refine List.filter_congr (fun c hc => ?_)
    by_cases hmemA : c ∈ catalog.filter (fun c' =>
        containsSub (toLowerStr c'.name).data (normalizeQuery query).data)
    · have h1 : ((catalog.filter (fun c' =>
          containsSub (toLowerStr c'.name).data (normalizeQuery query).data)).map
            City.name).contains c.name = true :=
        List.elem_eq_true_of_mem (List.mem_map_of_mem _ hmemA)
      have h2 : decide (c ∉ catalog.filter (fun c' =>
          containsSub (toLowerStr c'.name).data (normalizeQuery query).data)) = false := by
        simp [hmemA]
      rw [h1, h2]
      rfl
    · have h1 : ((catalog.filter (fun c' =>
          containsSub (toLowerStr c'.name).data (normalizeQuery query).data)).map
            City.name).contains c.name = false := by
        cases hco : ((catalog.filter (fun c' =>
            containsSub (toLowerStr c'.name).data (normalizeQuery query).data)).map
              City.name).contains c.name
        · rfl
        · exfalso
          have hmem := List.mem_of_elem_eq_true hco
          obtain ⟨c', hc', hcn⟩ := List.mem_map.mp hmem
          have hc'cat : c' ∈ catalog := (List.mem_filter.mp hc').1
          have hcc : c' = c := List.inj_on_of_nodup_map hnodup hc'cat hc hcn
          exact hmemA (hcc ▸ hc')
      have h2 : decide (c ∉ catalog.filter (fun c' =>
          containsSub (toLowerStr c'.name).data (normalizeQuery query).data)) = true := by
        simp [hmemA]
      rw [h1, h2]
      rfl
  have hres : (searchResults catalog tzOffset query).results
      = (specNameMatches catalog (normalizeQuery query)
          ++ specCountryMatches catalog (normalizeQuery query)).take 12 := by
    rw [searchResults_freeText hq0 hoff]
    show ((catalog.filter _ ++ catalog.filter _).take 12)
      = (specNameMatches catalog (normalizeQuery query)
          ++ specCountryMatches catalog (normalizeQuery query)).take 12
    rw [hcm]
    rfl
  refine ⟨hres, ?_, ?_⟩
  · intro c hcA hcB
    have := (List.mem_filter.mp hcB).2
    rw [Bool.and_eq_true] at this
    have h1 := this.1
    simp only [decide_eq_true_eq] at h1
    exact h1 hcA
  · rw [hres]
    exact List.length_take_le _ _

/-- Witness for C4 at the catalog `sampleCatalog` and the query `" Tokyo "`
(exercising trimming and lower-casing). -/
theorem freeText_results_witness :
    (searchResults sampleCatalog sampleTz " Tokyo ").results
      = (specNameMatches sampleCatalog (normalizeQuery " Tokyo ")
          ++ specCountryMatches sampleCatalog (normalizeQuery " Tokyo ")).take 12 :=
  (freeText_results sampleCatalog sampleTz " Tokyo "
    (by decide) (by decide) (by decide)).1

/-! ### C5 — offset search characterization -/

/-- **C5.** When the query parses as an offset, the results are exactly the
catalog cities (catalog order, truncated to 12) whose zone resolves — at the
one shared evaluation instant `tzOffset` models — to that exact offset,
presented grouped (`showGroups` is unconditionally true); every city in the
results has the requested offset, and a city whose zone resolution fails is
silently excluded. -/
theorem offset_search (catalog : List City) (tzOffset : String → Option Int)
    (query : String) (off : Int)
    (hoff : parseOffsetQuery (normalizeQuery query) = some off) :
    (searchResults catalog tzOffset query).results
      = (catalog.filter (offsetKeep tzOffset off)).take 12 ∧
    (searchResults catalog tzOffset query).grouped
      = groupByCountry (searchResults catalog tzOffset query).results ∧
    (searchResults catalog tzOffset query).showGroups = true ∧
    (∀ c ∈ (searchResults catalog tzOffset query).results, tzOffset c.tz = some off) ∧
    (∀ c, tzOffset c.tz = none → c ∉ (searchResults catalog tzOffset query).results) := by
  have hq0 : ¬ (normalizeQuery query).length = 0 := by
    intro h0
    have hq : normalizeQuery query = "" := String.ext (List.length_eq_zero.mp h0)
    rw [hq] at hoff
    have hnone : parseOffsetQuery "" = none := rfl
    rw [hnone] at hoff
    cases hoff
  rw [searchResults_offset hq0 hoff]
  refine ⟨rfl, rfl, rfl, ?_, ?_⟩
  · intro c hc
    have hc' : c ∈ catalog.filter (offsetKeep tzOffset off) := List.mem_of_mem_take hc
    have hkeep := (List.mem_filter.mp hc').2
    unfold offsetKeep at hkeep
    rcases ho : tzOffset c.tz with _ | o
    · rw [ho] at hkeep
      cases hkeep
    · rw [ho] at hkeep
      simp only [decide_eq_true_eq] at hkeep
      rw [hkeep]
  · intro c hno hc
    have hc' := List.mem_of_mem_take hc
    have hkeep := (List.mem_filter.mp hc').2
    unfold offsetKeep at hkeep
    rw [hno] at hkeep
    cases hkeep

/-- Witness for C5 at `"utc+1"` over the sample catalog: only London's zone is
at +60 minutes, and the dropdown shows groups. -/
theorem offset_search_witness :
    (searchResults sampleCatalog sampleTz "utc+1").results
      = (sampleCatalog.filter (offsetKeep sampleTz 60)).take 12 ∧
    (searchResults sampleCatalog sampleTz "utc+1").showGroups = true :=
  ⟨(offset_search sampleCatalog sampleTz "utc+1" 60 (by decide)).1,
   (offset_search sampleCatalog sampleTz "utc+1" 60 (by decide)).2.2.1⟩

end WhenWhere
